import Mathlib

/-!
Verification development for the Crypto-Trade repository.

The frontend TypeScript sources under src/frontend (and the unnamed
frontend modules) are embedded shallowly: interfaces become structures,
pure utility functions become Lean functions over exact rationals, and
the websocket reconnection logic becomes a transition function on the
retry counter.  The analysis-engine backend (strategies, aggregator,
signal store, backtest engine) is not part of the provided sources; those
components are modelled from the specification text, and each such
definition is marked in its doc comment.
-/

/-! Section 1: data model of the frontend API layer. -/

/-- Signal direction, from the union type of signal_type in the frontend
Signal interface (src/unnamed/part_005). -/
inductive SignalType
  | BUY
  | SELL
  | HOLD
  deriving DecidableEq, Repr

/-- Embedding of the frontend Signal interface (src/unnamed/part_005,
lines 9 to 19).  Field names are exactly the declared TypeScript fields. -/
structure Signal where
  signal_id : String
  symbol : String
  signal_type : SignalType
  entry_price : ℚ
  stop_loss : ℚ
  take_profit : ℚ
  strategy : String
  confidence : ℚ
  timestamp : String
  deriving DecidableEq

/-- The declared field names of the frontend Signal interface, in source
order (src/unnamed/part_005, lines 9 to 19). -/
def signalFields : List String :=
  ["signal_id", "symbol", "signal_type", "entry_price", "stop_loss",
   "take_profit", "strategy", "confidence", "timestamp"]

/-- The members of the signal_type union in the frontend Signal
interface. -/
def signalTypeValues : List String := ["BUY", "SELL", "HOLD"]

/-- The field names the specification data model ascribes to a Signal
record, following the words of the spec (section 3). -/
def specSignalFields : List String :=
  ["id", "symbol", "signal_type", "entry_price", "stop_loss",
   "take_profit", "strategy_name", "confidence", "timestamp", "interval"]

/-- Embedding of the frontend Strategy interface (src/unnamed/part_005,
lines 2 to 6). -/
structure Strategy where
  name : String
  description : String
  parameters : List (String × ℚ)
  deriving DecidableEq

/-- The declared field names of the frontend Strategy interface. -/
def strategyFields : List String := ["name", "description", "parameters"]

/-- Embedding of the response envelope of strategiesApi.list
(src/frontend/src/api/strategies.ts, lines 7 to 11). -/
structure StrategiesListResponse where
  strategies : List Strategy
  total : ℕ

/-- Embedding of the BacktestRequest interface
(src/frontend/src/types/backtest.ts). -/
structure BacktestRequest where
  strategy : String
  symbol : String
  start_date : String
  end_date : String
  initial_capital : ℚ
  params : List (String × String)
  deriving DecidableEq

/-- Embedding of the BacktestResponse interface, the value returned by
the run endpoint (src/frontend/src/types/backtest.ts, lines 12 to 17). -/
structure BacktestResponse where
  backtest_id : String
  status : String
  message : String
  deriving DecidableEq

/-- Embedding of the metrics object inside BacktestResult
(src/frontend/src/types/backtest.ts, lines 22 to 28). -/
structure BacktestMetrics where
  total_return : ℚ
  sharpe_ratio : ℚ
  max_drawdown : ℚ
  win_rate : ℚ
  total_trades : ℕ
  deriving DecidableEq

/-- Embedding of the BacktestResult interface
(src/frontend/src/types/backtest.ts, lines 19 to 30). -/
structure BacktestResult where
  backtest_id : String
  summary : List (String × String)
  metrics : BacktestMetrics
  rating : List (String × String)
  deriving DecidableEq

/-- Field names of BacktestResponse, in source order. -/
def backtestResponseFields : List String := ["backtest_id", "status", "message"]

/-- Field names of the metrics object of BacktestResult, in source order. -/
def backtestMetricsFields : List String :=
  ["total_return", "sharpe_ratio", "max_drawdown", "win_rate", "total_trades"]

/-- Field names of BacktestResult, in source order. -/
def backtestResultFields : List String :=
  ["backtest_id", "summary", "metrics", "rating"]

/-- An HTTP request descriptor, as issued by the axios client wrappers. -/
structure ApiRequest where
  method : String
  path : String
  deriving DecidableEq

/-- Embedding of backtestApi.run (src/frontend/src/api/backtest.ts):
posts the request body and is typed to yield a BacktestResponse. -/
def backtestApiRun (_r : BacktestRequest) : ApiRequest :=
  { method := "POST", path := "/api/v1/backtest/run" }

/-- Embedding of backtestApi.getResults (src/frontend/src/api/backtest.ts):
a get keyed by the backtest id, typed to yield a BacktestResult. -/
def backtestApiGetResults (id : String) : ApiRequest :=
  { method := "GET", path := "/api/v1/backtest/" ++ id ++ "/results" }

/-! Section 2: price formatting utilities (the format module shown in
src/unnamed/part_001). -/

/-- A JavaScript number: either NaN or an exact numeric value, modelled
as a rational. -/
inductive JsNum
  | nan
  | num (q : ℚ)
  deriving DecidableEq

/-- Floor of the negated base-10 logarithm of a rational strictly
between 0 and 1: the count of leading zeros after the decimal point. -/
def floorNegLog10 (q : ℚ) : ℕ := Nat.log 10 ⌊q⁻¹⌋₊

/-- Embedding of getSmartPrecision (src/unnamed/part_001): two decimal
places for zero, NaN and magnitudes of at least one; otherwise two more
than the count of leading zeros, capped at twelve. -/
def getSmartPrecision (n : JsNum) : ℕ :=
  match n with
  | JsNum.nan => 2
  | JsNum.num q =>
    if q = 0 then 2
    else if 1 ≤ |q| then 2
    else min (floorNegLog10 |q| + 2) 12

/-- The character of a single decimal digit. -/
def digitChar (d : ℕ) : Char := Char.ofNat (48 + d % 10)

/-- Decimal digits of a natural number, least significant first; the
first argument is recursion fuel. -/
def natDigitsAux : ℕ → ℕ → List Char
  | 0, _ => []
  | _ + 1, 0 => []
  | fuel + 1, n + 1 => digitChar ((n + 1) % 10) :: natDigitsAux fuel ((n + 1) / 10)

/-- Decimal digits of a natural number, least significant first, with a
single zero digit for zero itself. -/
def natRevDigits (n : ℕ) : List Char :=
  if n = 0 then [digitChar 0] else natDigitsAux n n

/-- Insert a comma after every three digits of a little-endian digit
list, as the en-US locale grouping does; fuel-based recursion. -/
def groupRevAux : ℕ → List Char → List Char
  | 0, ds => ds
  | fuel + 1, ds =>
    if ds.length ≤ 3 then ds
    else ds.take 3 ++ ',' :: groupRevAux fuel (ds.drop 3)

/-- Fixed-point rendering of a rational with en-US thousands grouping
and exactly p digits after the decimal point, rounding half away from
zero, as toLocaleString does with both fraction-digit options set to p. -/
def formatFixed (q : ℚ) (p : ℕ) : String :=
  let scaled : ℕ := (round (|q| * (10 : ℚ) ^ p)).toNat
  let ip := scaled / 10 ^ p
  let fp := scaled % 10 ^ p
  let sign : List Char := if q < 0 then ['-'] else []
  let intChars := (groupRevAux (natRevDigits ip).length (natRevDigits ip)).reverse
  let fracChars := (List.range p).map (fun i => digitChar (fp / 10 ^ (p - 1 - i)))
  if p = 0 then String.mk (sign ++ intChars)
  else String.mk (sign ++ intChars ++ '.' :: fracChars)

/-- Embedding of formatPrice (src/unnamed/part_001): NaN renders as
0.00; otherwise the precision argument, or the smart precision when the
argument is absent, fixes the number of fraction digits. -/
def formatPrice (value : JsNum) (precision : Option ℕ) : String :=
  match value with
  | JsNum.nan => "0.00"
  | JsNum.num q => formatFixed q (precision.getD (getSmartPrecision (JsNum.num q)))

/-- Number of characters after the first dot of a rendered string. -/
def fracDigitCount (s : String) : ℕ :=
  ((s.data.dropWhile (fun c => c != '.')).drop 1).length

/-! Section 3: websocket reconnection state
(src/frontend/src/hooks/useTickerWebSocket.ts). -/

/-- Lifecycle events of the ticker websocket that touch the retry
counter. -/
inductive WsEvent
  | onopen
  | onclose
  deriving DecidableEq

/-- Delay scheduled by the onclose handler when the retry counter is r:
1000 times 2 to the r, capped at 30000 milliseconds. -/
def reconnectDelay (r : ℕ) : ℕ := min (1000 * 2 ^ r) 30000

/-- Transition of the retry counter: onopen resets it to zero, onclose
increments it after scheduling the reconnection. -/
def wsStep (r : ℕ) : WsEvent → ℕ
  | WsEvent.onopen => 0
  | WsEvent.onclose => r + 1

/-- Retry counter after a sequence of websocket lifecycle events,
starting from zero. -/
def wsRetries (events : List WsEvent) : ℕ := events.foldl wsStep 0

/-- Delay scheduled when a close arrives after the given history. -/
def wsCloseDelay (events : List WsEvent) : ℕ := reconnectDelay (wsRetries events)

/-! Section 4: the analysis engine, modelled from the specification.
The Python backend implementing it is not among the provided sources;
each definition below follows the cited specification text. -/

/-- Modelled from the spec: the engine Signal record of the data model
(spec section 3), with prices and confidence as exact rationals and the
timestamp in seconds.  The backend signal module is missing from the
sources. -/
structure CoreSignal where
  id : String
  symbol : String
  signal_type : SignalType
  entry_price : ℚ
  stop_loss : ℚ
  take_profit : ℚ
  strategy_name : String
  confidence : ℚ
  timestamp : ℕ
  interval : String
  deriving DecidableEq

/-- Modelled from the spec: the Signal side conditions of the data-model
invariants (spec section 3): BUY needs stop below entry below target,
SELL the inverse, and confidence between zero and one. -/
def validSignal (s : CoreSignal) : Bool :=
  (decide (0 ≤ s.confidence) && decide (s.confidence ≤ 1)) &&
    match s.signal_type with
    | SignalType.BUY =>
      decide (s.stop_loss < s.entry_price) && decide (s.entry_price < s.take_profit)
    | SignalType.SELL =>
      decide (s.take_profit < s.entry_price) && decide (s.entry_price < s.stop_loss)
    | SignalType.HOLD => true

/-- Modelled from the spec: emission filters the candidate signals
through the validator; violating signals are rejected, not emitted
(spec section 3, invariants). -/
def emitSignals (candidates : List CoreSignal) : List CoreSignal :=
  candidates.filter validSignal

/-- Modelled from the spec: retention TTL of the signal store in
seconds, 24 hours (spec section 4.5 and the repository README). -/
def signalTTL : ℕ := 86400

/-- Modelled from the spec: retention cap of the signal store (spec
section 4.5 and the repository README). -/
def signalCap : ℕ := 500

/-- Modelled from the spec: the persisted signal store, newest entry
first; each entry carries the second at which it was written (spec
section 4.5). -/
structure SignalStore where
  entries : List (ℕ × CoreSignal)
  deriving DecidableEq

/-- Modelled from the spec: TTL cleanup followed by truncation to the
most recent cap entries (spec section 4.5). -/
def cleanupStore (now : ℕ) (entries : List (ℕ × CoreSignal)) :
    List (ℕ × CoreSignal) :=
  (entries.filter (fun e => decide (now ≤ e.1 + signalTTL))).take signalCap

/-- Modelled from the spec: append prepends the new entry and enforces
both background invariants on the write (spec section 4.5). -/
def appendSignal (now : ℕ) (s : CoreSignal) (store : SignalStore) : SignalStore :=
  SignalStore.mk (cleanupStore now ((now, s) :: store.entries))

/-- Modelled from the spec: query returns the retained entries, newest
first, dropping entries whose TTL has lapsed by the query instant (spec
sections 4.5 and 8). -/
def queryStore (now : ℕ) (store : SignalStore) : List (ℕ × CoreSignal) :=
  store.entries.filter (fun e => decide (now ≤ e.1 + signalTTL))

/-- Stores reachable from the empty store by appends. -/
inductive StoreReachable : SignalStore → Prop
  | empty : StoreReachable (SignalStore.mk [])
  | append (now : ℕ) (s : CoreSignal) (store : SignalStore) :
      StoreReachable store → StoreReachable (appendSignal now s store)

/-- The fixed signal used in concrete scenarios. -/
def scenarioSignal : CoreSignal :=
  CoreSignal.mk "sig-1" "BTC/USDT" SignalType.BUY 100 95 110 "trend_following"
    1 0 "1h"

/-- The store after 600 appends of the scenario signal at seconds 0 to
599. -/
def scenarioStore600 : SignalStore :=
  (List.range 600).foldl (fun st i => appendSignal i scenarioSignal st)
    (SignalStore.mk [])

/-- Modelled from the spec: aggregator configuration, the closeness
margin for the BUY versus SELL conflict (spec sections 4.4 and 9). -/
structure AggConfig where
  margin : ℚ

/-- The candidate signals of one direction. -/
def signalsOfType (t : SignalType) (sigs : List CoreSignal) : List CoreSignal :=
  sigs.filter (fun s => decide (s.signal_type = t))

/-- Summed confidence of one direction group, with the default equal
weights (spec section 4.4). -/
def confidenceSum (t : SignalType) (sigs : List CoreSignal) : ℚ :=
  ((signalsOfType t sigs).map CoreSignal.confidence).sum

/-- Modelled from the spec: merge the candidate signals of one
evaluation into at most one final signal (spec section 4.4): group by
type; when the BUY and SELL groups are both non-empty with summed
confidences within the margin of each other, resolve the conflict to
HOLD; otherwise the strictly dominating group wins with the normalized
average confidence; with no candidates, no final signal. -/
def aggregateSignals (cfg : AggConfig) (sigs : List CoreSignal) : List CoreSignal :=
  match sigs with
  | [] => []
  | s0 :: _ =>
    if signalsOfType SignalType.BUY sigs ≠ [] ∧
        signalsOfType SignalType.SELL sigs ≠ [] ∧
        |confidenceSum SignalType.BUY sigs - confidenceSum SignalType.SELL sigs| ≤
          cfg.margin then
      [{ s0 with signal_type := SignalType.HOLD, confidence := 0 }]
    else if confidenceSum SignalType.SELL sigs < confidenceSum SignalType.BUY sigs ∧
        signalsOfType SignalType.BUY sigs ≠ [] then
      [{ s0 with
          signal_type := SignalType.BUY
          confidence := confidenceSum SignalType.BUY sigs /
            ((signalsOfType SignalType.BUY sigs).length : ℚ) }]
    else if confidenceSum SignalType.BUY sigs < confidenceSum SignalType.SELL sigs ∧
        signalsOfType SignalType.SELL sigs ≠ [] then
      [{ s0 with
          signal_type := SignalType.SELL
          confidence := confidenceSum SignalType.SELL sigs /
            ((signalsOfType SignalType.SELL sigs).length : ℚ) }]
    else []

/-- Modelled from the spec: an OHLCV candle (spec section 3); the price
field names are shortened because open clashes with a Lean keyword. -/
structure Candle where
  ts : ℕ
  op : ℚ
  hi : ℚ
  lo : ℚ
  cl : ℚ
  vol : ℚ
  deriving DecidableEq

/-- A signal awaiting its fill on the next candle; sigIndex is the index
of the candle whose close produced it. -/
structure BtPending where
  sig : CoreSignal
  sigIndex : ℕ
  deriving DecidableEq

/-- An open simulated position. -/
structure BtPosition where
  sig : CoreSignal
  sigIndex : ℕ
  entryIndex : ℕ
  entryPrice : ℚ
  deriving DecidableEq

/-- A closed simulated trade. -/
structure BtTrade where
  sigIndex : ℕ
  entryIndex : ℕ
  exitIndex : ℕ
  entryPrice : ℚ
  exitPrice : ℚ
  direction : SignalType
  deriving DecidableEq

/-- Running state of the backtest replay. -/
structure BtState where
  capital : ℚ
  position : Option BtPosition
  pending : Option BtPending
  trades : List BtTrade
  equity : List (ℕ × ℚ)
  deriving DecidableEq

/-- Modelled from the spec: stop or target touch by the candle range
(spec section 4.7): a long exits at the stop when the low reaches it,
else at the target when the high reaches it; a short inversely. -/
def exitCheck (pos : BtPosition) (c : Candle) : Option ℚ :=
  match pos.sig.signal_type with
  | SignalType.BUY =>
    if c.lo ≤ pos.sig.stop_loss then some pos.sig.stop_loss
    else if pos.sig.take_profit ≤ c.hi then some pos.sig.take_profit
    else none
  | SignalType.SELL =>
    if pos.sig.stop_loss ≤ c.hi then some pos.sig.stop_loss
    else if c.lo ≤ pos.sig.take_profit then some pos.sig.take_profit
    else none
  | SignalType.HOLD => none

/-- Modelled from the spec: capital after closing the position at the
given price, the whole capital being committed to the trade. -/
def settleCapital (cap : ℚ) (pos : BtPosition) (px : ℚ) : ℚ :=
  if pos.entryPrice = 0 then cap
  else
    match pos.sig.signal_type with
    | SignalType.BUY => cap * px / pos.entryPrice
    | SignalType.SELL => cap * (2 - px / pos.entryPrice)
    | SignalType.HOLD => cap

/-- Close the open position at the given exit index and price, recording
the trade. -/
def closePosition (st : BtState) (pos : BtPosition) (i : ℕ) (px : ℚ) : BtState :=
  { st with
    capital := settleCapital st.capital pos px
    position := none
    trades := BtTrade.mk pos.sigIndex pos.entryIndex i pos.entryPrice px
      pos.sig.signal_type :: st.trades }

/-- Modelled from the spec: fill a signal pending from the previous
candle at the open of the current candle i (spec section 4.7, entry on
the next candle, never the signal candle). -/
def btOpenPending (i : ℕ) (c : Candle) (st : BtState) : BtState :=
  match st.pending with
  | some p =>
    { st with
        position := some (BtPosition.mk p.sig p.sigIndex i c.op)
        pending := none }
  | none => st

/-- Modelled from the spec: close the open position when the candle
range touches the stop or the target, or force a close at the final
close price when this is the last candle (spec section 4.7). -/
def btCheckExit (i : ℕ) (c : Candle) (isLast : Bool) (st : BtState) : BtState :=
  match st.position with
  | some pos =>
    match exitCheck pos c with
    | some px => closePosition st pos i px
    | none => if isLast then closePosition st pos i c.cl else st
  | none => st

/-- Append the realized capital to the equity curve at this candle. -/
def btRecordEquity (c : Candle) (st : BtState) : BtState :=
  { st with equity := (c.ts, st.capital) :: st.equity }

/-- Modelled from the spec: ask the strategy, which sees only the
candles up to and including the current one, for a signal; a non-HOLD
signal becomes pending for the next candle when no position or pending
fill is outstanding. -/
def btAskStrategy (strat : List Candle → Option CoreSignal)
    (seen2 : List Candle) (i : ℕ) (st : BtState) : BtState :=
  match strat seen2 with
  | some sig =>
    if sig.signal_type = SignalType.HOLD then st
    else if st.position.isNone && st.pending.isNone then
      { st with pending := some (BtPending.mk sig i) }
    else st
  | none => st

/-- Modelled from the spec: the sequential replay loop of the backtest
engine, one candle at a time (spec section 4.7). -/
def btLoop (strat : List Candle → Option CoreSignal) :
    List Candle → ℕ → List Candle → BtState → BtState
  | _, _, [], st => st
  | seen, i, c :: rest, st =>
    btLoop strat (seen ++ [c]) (i + 1) rest
      (btAskStrategy strat (seen ++ [c]) i
        (btRecordEquity c (btCheckExit i c rest.isEmpty (btOpenPending i c st))))

/-- Modelled from the spec: the backtest outcome fields the claims
concern (spec sections 3 and 4.7). -/
structure BtResultCore where
  equity_curve : List (ℕ × ℚ)
  trades : List BtTrade
  total_trades : ℕ
  total_return : ℚ
  deriving DecidableEq

/-- Modelled from the spec: replay the candle window through one
strategy from the given initial capital (spec section 4.7). -/
def runBacktest (strat : List Candle → Option CoreSignal) (initial : ℚ)
    (candles : List Candle) : BtResultCore :=
  let fin := btLoop strat [] 0 candles (BtState.mk initial none none [] [])
  BtResultCore.mk fin.equity.reverse fin.trades.reverse fin.trades.length
    (if initial = 0 then 0 else fin.capital / initial - 1)

/-- Concrete strategy for the no-look-ahead witness: fire a BUY once the
first candle has been seen. -/
def btWitnessStrat (pre : List Candle) : Option CoreSignal :=
  if pre.length = 1 then some scenarioSignal else none

/-- Concrete candle window for the no-look-ahead witness. -/
def btWitnessCandles : List Candle :=
  [Candle.mk 0 100 101 99 100 1, Candle.mk 1 100 112 99 105 1,
   Candle.mk 2 106 107 104 106 1]

/-- A trade respects the no-look-ahead discipline: it is entered one
candle after its signal, at that next candle's open price. -/
def BtTradeOK (candles : List Candle) (t : BtTrade) : Prop :=
  t.entryIndex = t.sigIndex + 1 ∧
    ∃ cd, candles[t.entryIndex]? = some cd ∧ t.entryPrice = cd.op

/-- An open position respects the no-look-ahead discipline. -/
def BtPosOK (candles : List Candle) (pos : BtPosition) : Prop :=
  pos.entryIndex = pos.sigIndex + 1 ∧
    ∃ cd, candles[pos.entryIndex]? = some cd ∧ pos.entryPrice = cd.op

/-- The SELL counterpart of the scenario signal, used in the aggregator
conflict witness. -/
def scenarioSellSignal : CoreSignal :=
  CoreSignal.mk "sig-2" "BTC/USDT" SignalType.SELL 100 110 95 "mean_reversion"
    1 0 "1h"

/-- Concrete candidate set for the aggregator conflict witness: one BUY
and one SELL of equal confidence. -/
def aggWitnessSigs : List CoreSignal :=
  [scenarioSignal, scenarioSellSignal]

/-! Theorems for the API-shape claims. -/

/-- C6 counterexample: the Signal record actually declared at the
frontend external interface does not carry the field set the claim
states.  It has signal_id and strategy instead of id and strategy_name,
and it has no interval field at all. -/
theorem signal_fields_differ_from_claim :
    signalFields ≠ specSignalFields ∧
    "interval" ∉ signalFields ∧
    "id" ∉ signalFields ∧
    "strategy_name" ∉ signalFields ∧
    "signal_id" ∈ signalFields ∧
    "strategy" ∈ signalFields := by
  refine ⟨by decide, by decide, by decide, by decide, by decide, by decide⟩

/-- C6 (amended): every Signal value at the external interface is a
record with exactly the fields signal_id, symbol, signal_type (one of
BUY, SELL, HOLD), entry_price, stop_loss, take_profit, strategy,
confidence and timestamp; the record is fully determined by these nine
fields. -/
theorem signal_record_shape :
    signalFields = ["signal_id", "symbol", "signal_type", "entry_price",
      "stop_loss", "take_profit", "strategy", "confidence", "timestamp"] ∧
    signalTypeValues = ["BUY", "SELL", "HOLD"] ∧
    (∀ a b : Signal, a.signal_id = b.signal_id → a.symbol = b.symbol →
      a.signal_type = b.signal_type → a.entry_price = b.entry_price →
      a.stop_loss = b.stop_loss → a.take_profit = b.take_profit →
      a.strategy = b.strategy → a.confidence = b.confidence →
      a.timestamp = b.timestamp → a = b) := by
  refine ⟨rfl, rfl, ?_⟩
  intro a b h1 h2 h3 h4 h5 h6 h7 h8 h9
  cases a
  cases b
  simp_all

/-- C6 witness: the extensionality part of the amended shape theorem,
applied at a concrete Signal value. -/
theorem signal_record_shape_witness :
    Signal.mk "s1" "BTC/USDT" SignalType.BUY 100 95 110 "trend" (4/5) "t0" =
    Signal.mk "s1" "BTC/USDT" SignalType.BUY 100 95 110 "trend" (4/5) "t0" := by
  exact signal_record_shape.2.2 _ _ rfl rfl rfl rfl rfl rfl rfl rfl rfl

/-- C7: the list_strategies operation returns records that have exactly
the fields name, description and parameters; a Strategy record is fully
determined by those three fields, and the response envelope carries only
such records. -/
theorem list_strategies_record_shape :
    strategyFields = ["name", "description", "parameters"] ∧
    (∀ a b : Strategy, a.name = b.name → a.description = b.description →
      a.parameters = b.parameters → a = b) ∧
    (∀ r : StrategiesListResponse, ∀ s ∈ r.strategies,
       s = Strategy.mk s.name s.description s.parameters) := by
  refine ⟨rfl, ?_, ?_⟩
  · intro a b h1 h2 h3
    cases a
    cases b
    simp_all
  · intro r s _
    cases s
    rfl

/-- C7 witness: the extensionality part applied at a concrete Strategy
record. -/
theorem list_strategies_record_shape_witness :
    Strategy.mk "trend_following" "MA crossover" [("fast", 5)] =
    Strategy.mk "trend_following" "MA crossover" [("fast", 5)] := by
  exact list_strategies_record_shape.2.1 _ _ rfl rfl rfl

/-- C8: run_backtest returns a handle, not the result.  The run endpoint
is typed to return a BacktestResponse consisting exactly of backtest_id,
status and message (no metrics), and the BacktestResult with its metrics
object is obtained from a separate GET request whose path is keyed by
the backtest id. -/
theorem run_backtest_returns_handle :
    backtestResponseFields = ["backtest_id", "status", "message"] ∧
    "metrics" ∉ backtestResponseFields ∧
    backtestResponseFields ≠ backtestResultFields ∧
    backtestResultFields = ["backtest_id", "summary", "metrics", "rating"] ∧
    backtestMetricsFields =
      ["total_return", "sharpe_ratio", "max_drawdown", "win_rate",
       "total_trades"] ∧
    (∀ r : BacktestRequest,
       backtestApiRun r = ApiRequest.mk "POST" "/api/v1/backtest/run") ∧
    (∀ id : String,
       backtestApiGetResults id =
         ApiRequest.mk "GET" ("/api/v1/backtest/" ++ id ++ "/results")) := by
  refine ⟨rfl, by decide, by decide, rfl, rfl, fun r => rfl, fun id => rfl⟩

/-! Helper lemmas for the formatting development. -/

theorem digitChar_ne_dot (d : ℕ) : digitChar d ≠ '.' := by
  unfold digitChar
  have h : d % 10 < 10 := Nat.mod_lt _ (by norm_num)
  generalize d % 10 = k at h ⊢
  interval_cases k <;> decide

theorem mem_natDigitsAux {c : Char} :
    ∀ fuel n : ℕ, c ∈ natDigitsAux fuel n → ∃ d, c = digitChar d := by
  intro fuel
  induction fuel with
  | zero => intro n h; simp [natDigitsAux] at h
  | succ fuel ih =>
    intro n h
    cases n with
    | zero => simp [natDigitsAux] at h
    | succ m =>
      rw [natDigitsAux, List.mem_cons] at h
      rcases h with h | h
      · exact ⟨(m + 1) % 10, h⟩
      · exact ih _ h

theorem mem_natRevDigits {c : Char} {n : ℕ} (h : c ∈ natRevDigits n) :
    ∃ d, c = digitChar d := by
  unfold natRevDigits at h
  split at h
  · simp at h
    exact ⟨0, h⟩
  · exact mem_natDigitsAux _ _ h

theorem mem_groupRevAux {c : Char} :
    ∀ fuel : ℕ, ∀ ds : List Char, c ∈ groupRevAux fuel ds → c ∈ ds ∨ c = ',' := by
  intro fuel
  induction fuel with
  | zero => intro ds h; exact Or.inl h
  | succ fuel ih =>
    intro ds h
    rw [groupRevAux] at h
    split at h
    · exact Or.inl h
    · rw [List.mem_append, List.mem_cons] at h
      rcases h with h | h | h
      · exact Or.inl (List.take_subset 3 ds h)
      · exact Or.inr h
      · rcases ih _ h with h2 | h2
        · exact Or.inl (List.drop_subset 3 ds h2)
        · exact Or.inr h2

theorem dropWhile_append_dot :
    ∀ l1 l2 : List Char, (∀ c ∈ l1, c ≠ '.') →
      (l1 ++ '.' :: l2).dropWhile (fun c => c != '.') = '.' :: l2 := by
  intro l1 l2 h
  induction l1 with
  | nil => simp [List.dropWhile]
  | cons a l ih =>
    have ha : a ≠ '.' := h a (List.mem_cons_self a l)
    rw [List.cons_append, List.dropWhile_cons]
    simp only [bne_iff_ne, ne_eq, ha, not_false_eq_true, if_true]
    exact ih (fun c hc => h c (List.mem_cons_of_mem a hc))

theorem fracDigitCount_formatFixed (q : ℚ) (p : ℕ) (hp : 0 < p) :
    fracDigitCount (formatFixed q p) = p := by
  unfold formatFixed
  rw [if_neg (Nat.pos_iff_ne_zero.mp hp)]
  unfold fracDigitCount
  have hnd : ∀ c ∈ ((if q < 0 then ['-'] else []) ++
      (groupRevAux (natRevDigits ((round (|q| * (10 : ℚ) ^ p)).toNat / 10 ^ p)).length
        (natRevDigits ((round (|q| * (10 : ℚ) ^ p)).toNat / 10 ^ p))).reverse),
      c ≠ '.' := by
    intro c hc
    rw [List.mem_append] at hc
    rcases hc with hc | hc
    · split at hc <;> simp at hc
      subst hc
      decide
    · rw [List.mem_reverse] at hc
      rcases mem_groupRevAux _ _ hc with h2 | h2
      · rcases mem_natRevDigits h2 with ⟨d, rfl⟩
        exact digitChar_ne_dot d
      · subst h2
        decide
  rw [show ((if q < 0 then ['-'] else []) ++
      (groupRevAux (natRevDigits ((round (|q| * (10 : ℚ) ^ p)).toNat / 10 ^ p)).length
        (natRevDigits ((round (|q| * (10 : ℚ) ^ p)).toNat / 10 ^ p))).reverse ++
      '.' :: (List.range p).map
        (fun i => digitChar ((round (|q| * (10 : ℚ) ^ p)).toNat % 10 ^ p / 10 ^ (p - 1 - i)))) =
      ((if q < 0 then ['-'] else []) ++
      (groupRevAux (natRevDigits ((round (|q| * (10 : ℚ) ^ p)).toNat / 10 ^ p)).length
        (natRevDigits ((round (|q| * (10 : ℚ) ^ p)).toNat / 10 ^ p))).reverse) ++
      '.' :: (List.range p).map
        (fun i => digitChar ((round (|q| * (10 : ℚ) ^ p)).toNat % 10 ^ p / 10 ^ (p - 1 - i)))
      from by rw [List.append_assoc]]
  rw [dropWhile_append_dot _ _ hnd]
  simp

theorem natFloor_ratCast_real (y : ℚ) (hy : 0 ≤ y) : ⌊((y : ℚ) : ℝ)⌋₊ = ⌊y⌋₊ := by
  have hyR : (0 : ℝ) ≤ ((y : ℚ) : ℝ) := by exact_mod_cast hy
  have h1 : ((⌊((y : ℚ) : ℝ)⌋₊ : ℕ) : ℤ) = ⌊((y : ℚ) : ℝ)⌋ :=
    Int.natCast_floor_eq_floor hyR
  have h2 : ((⌊y⌋₊ : ℕ) : ℤ) = ⌊y⌋ := Int.natCast_floor_eq_floor hy
  have h3 : ⌊((y : ℚ) : ℝ)⌋ = ⌊y⌋ := Rat.floor_cast y
  exact_mod_cast h1.trans (h3.trans h2.symm)

theorem floorNegLog10_eq_floor_neg_logb (x : ℚ) (hx0 : 0 < x) (hx1 : x < 1) :
    (floorNegLog10 x : ℤ) = ⌊-Real.logb 10 ((x : ℚ) : ℝ)⌋ := by
  have hxR : (0 : ℝ) < ((x : ℚ) : ℝ) := by exact_mod_cast hx0
  have hinv : (1 : ℚ) < x⁻¹ := (one_lt_inv₀ hx0).mpr hx1
  have hcast : (((x : ℚ) : ℝ))⁻¹ = ((x⁻¹ : ℚ) : ℝ) := by push_cast; ring
  have h10 : (10 : ℝ) = ((10 : ℕ) : ℝ) := by norm_num
  rw [← Real.logb_inv, hcast, h10]
  have hinvR : (1 : ℝ) ≤ ((x⁻¹ : ℚ) : ℝ) := by exact_mod_cast hinv.le
  rw [Real.floor_logb_natCast (le_trans zero_le_one hinvR)]
  rw [Int.log_of_one_le_right _ hinvR]
  rw [natFloor_ratCast_real _ (le_trans zero_le_one hinv.le)]
  rfl

/-- C9: getSmartPrecision always lies between 2 and 12; it is exactly 2
on NaN, on zero and on magnitudes of at least one; on a magnitude
strictly between 0 and 1 it is the floor of the negated base-10
logarithm of the magnitude plus two, capped at twelve; and formatPrice
without an explicit precision renders exactly that many fraction
digits. -/
theorem getSmartPrecision_spec :
    (∀ n : JsNum, 2 ≤ getSmartPrecision n ∧ getSmartPrecision n ≤ 12) ∧
    getSmartPrecision JsNum.nan = 2 ∧
    getSmartPrecision (JsNum.num 0) = 2 ∧
    (∀ q : ℚ, 1 ≤ |q| → getSmartPrecision (JsNum.num q) = 2) ∧
    (∀ q : ℚ, q ≠ 0 → |q| < 1 →
      (getSmartPrecision (JsNum.num q) : ℤ) =
        min (⌊-Real.logb 10 ((|q| : ℚ) : ℝ)⌋ + 2) 12) ∧
    (∀ v : JsNum, fracDigitCount (formatPrice v none) = getSmartPrecision v) := by
  have habs : ∀ q : ℚ, q ≠ 0 → ¬ 1 ≤ |q| →
      getSmartPrecision (JsNum.num q) = min (floorNegLog10 |q| + 2) 12 := by
    intro q h1 h2
    simp only [getSmartPrecision]
    rw [if_neg h1, if_neg h2]
  refine ⟨?_, rfl, by norm_num [getSmartPrecision], ?_, ?_, ?_⟩
  · intro n
    cases n with
    | nan => exact ⟨by decide, by decide⟩
    | num q =>
      simp only [getSmartPrecision]
      split_ifs with h1 h2
      · exact ⟨le_refl 2, by norm_num⟩
      · exact ⟨le_refl 2, by norm_num⟩
      · exact ⟨le_min (by omega) (by norm_num), min_le_right _ _⟩
  · intro q hq
    have hq0 : q ≠ 0 := by
      intro h
      rw [h] at hq
      norm_num at hq
    simp only [getSmartPrecision]
    rw [if_neg hq0, if_pos hq]
  · intro q hq0 hq1
    have hx0 : (0 : ℚ) < |q| := abs_pos.mpr hq0
    rw [habs q hq0 (not_le.mpr hq1)]
    rw [← floorNegLog10_eq_floor_neg_logb |q| hx0 hq1]
    push_cast [Nat.cast_min]
    rfl
  · intro v
    cases v with
    | nan => decide
    | num q =>
      have hpos : 0 < getSmartPrecision (JsNum.num q) := by
        simp only [getSmartPrecision]
        split_ifs <;> omega
      show fracDigitCount (formatFixed q (getSmartPrecision (JsNum.num q))) = _
      exact fracDigitCount_formatFixed q _ hpos

/-- C9 witness: the logarithm clause of the precision theorem applied at
the concrete magnitude 789 over 100000000, which has five leading
zeros. -/
theorem getSmartPrecision_spec_witness :
    (getSmartPrecision (JsNum.num (789 / 100000000)) : ℤ) =
      min (⌊-Real.logb 10 ((|(789 / 100000000 : ℚ)| : ℚ) : ℝ)⌋ + 2) 12 :=
  getSmartPrecision_spec.2.2.2.2.1 (789 / 100000000) (by norm_num)
    (by rw [abs_of_pos (by norm_num : (0 : ℚ) < 789 / 100000000)]; norm_num)

theorem foldl_wsStep_replicate :
    ∀ k r : ℕ, List.foldl wsStep r (List.replicate k WsEvent.onclose) = r + k := by
  intro k
  induction k with
  | zero => intro r; simp
  | succ k ih =>
    intro r
    rw [List.replicate_succ, List.foldl_cons]
    rw [ih (wsStep r WsEvent.onclose)]
    simp only [wsStep]
    omega

/-- C10: the reconnection delay before the k-th consecutive attempt is
the minimum of 1000 times 2 to the k and 30000 milliseconds; the delays
are monotonically nondecreasing in k and never exceed 30 seconds, and a
successful open resets the retry counter to zero. -/
theorem ws_reconnect_backoff :
    (∀ k l : ℕ, k ≤ l → reconnectDelay k ≤ reconnectDelay l) ∧
    (∀ k : ℕ, reconnectDelay k ≤ 30000) ∧
    (∀ events : List WsEvent, wsRetries (events ++ [WsEvent.onopen]) = 0) ∧
    (∀ events : List WsEvent, ∀ k : ℕ,
      wsCloseDelay (events ++ WsEvent.onopen :: List.replicate k WsEvent.onclose)
        = min (1000 * 2 ^ k) 30000) := by
  refine ⟨?_, ?_, ?_, ?_⟩
  · intro k l hkl
    exact min_le_min
      (Nat.mul_le_mul_left 1000 (Nat.pow_le_pow_right (by norm_num) hkl))
      (le_refl 30000)
  · intro k
    exact min_le_right _ _
  · intro events
    simp [wsRetries, List.foldl_append, wsStep]
  · intro events k
    unfold wsCloseDelay wsRetries
    rw [List.foldl_append, List.foldl_cons]
    show reconnectDelay (List.foldl wsStep 0 (List.replicate k WsEvent.onclose)) = _
    rw [foldl_wsStep_replicate k 0, Nat.zero_add]
    rfl

/-- C10 witness: monotonicity of the backoff applied at the concrete
retry counts two and three. -/
theorem ws_reconnect_backoff_witness :
    reconnectDelay 2 ≤ reconnectDelay 3 :=
  ws_reconnect_backoff.1 2 3 (by norm_num)

/-! Theorems for the modelled analysis engine. -/

/-- C1: every signal passing emission satisfies the side conditions, and
a violating signal is never emitted.  The emission pipeline is modelled
from the spec. -/
theorem emitted_signal_invariant :
    (∀ candidates : List CoreSignal, ∀ s ∈ emitSignals candidates,
      (s.signal_type = SignalType.BUY →
        s.stop_loss < s.entry_price ∧ s.entry_price < s.take_profit) ∧
      (s.signal_type = SignalType.SELL →
        s.take_profit < s.entry_price ∧ s.entry_price < s.stop_loss) ∧
      0 ≤ s.confidence ∧ s.confidence ≤ 1) ∧
    (∀ candidates : List CoreSignal, ∀ s : CoreSignal, validSignal s = false →
      s ∉ emitSignals candidates) := by
  constructor
  · intro cands s hs
    have hv : validSignal s = true := (List.mem_filter.mp hs).2
    unfold validSignal at hv
    cases hst : s.signal_type <;> rw [hst] at hv <;>
      simp only [Bool.and_eq_true, decide_eq_true_eq] at hv
    · exact ⟨fun _ => hv.2, fun h => absurd h (by simp [hst]),
        hv.1.1, hv.1.2⟩
    · exact ⟨fun h => absurd h (by simp [hst]), fun _ => hv.2,
        hv.1.1, hv.1.2⟩
    · exact ⟨fun h => absurd h (by simp [hst]),
        fun h => absurd h (by simp [hst]), hv.1.1, hv.1.2⟩
  · intro cands s hfalse hmem
    have hv : validSignal s = true := (List.mem_filter.mp hmem).2
    rw [hfalse] at hv
    cases hv

/-- C1 witness: the invariant applied to the concrete valid BUY signal
of the scenario. -/
theorem emitted_signal_invariant_witness :
    scenarioSignal ∈ emitSignals [scenarioSignal] ∧
    scenarioSignal.stop_loss < scenarioSignal.entry_price ∧
    scenarioSignal.entry_price < scenarioSignal.take_profit := by
  have hmem : scenarioSignal ∈ emitSignals [scenarioSignal] := by decide
  exact ⟨hmem, (emitted_signal_invariant.1 _ _ hmem).1 rfl⟩

theorem mem_cleanupStore {now : ℕ} {entries : List (ℕ × CoreSignal)}
    {e : ℕ × CoreSignal} (h : e ∈ cleanupStore now entries) :
    now ≤ e.1 + signalTTL := by
  unfold cleanupStore at h
  exact of_decide_eq_true (List.mem_filter.mp (List.mem_of_mem_take h)).2

theorem cleanupStore_length (now : ℕ) (entries : List (ℕ × CoreSignal)) :
    (cleanupStore now entries).length ≤ signalCap := by
  unfold cleanupStore
  rw [List.length_take]
  exact min_le_left _ _

theorem storeReachable_length {store : SignalStore} (h : StoreReachable store) :
    store.entries.length ≤ signalCap := by
  induction h with
  | empty => simp [signalCap]
  | append now s store _ _ => exact cleanupStore_length _ _

theorem scenario_filter_id (n : ℕ) (hn : n ≤ signalTTL)
    (l : List (ℕ × CoreSignal)) :
    l.filter (fun e => decide (n ≤ e.1 + signalTTL)) = l := by
  induction l with
  | nil => rfl
  | cons a l ih =>
    have hd : decide (n ≤ a.1 + signalTTL) = true :=
      decide_eq_true (le_trans hn (Nat.le_add_left signalTTL a.1))
    simp [List.filter_cons, hd, ih]

theorem scenarioFold_entries (n : ℕ) (hn : n ≤ signalTTL) :
    ((List.range n).foldl (fun st i => appendSignal i scenarioSignal st)
      (SignalStore.mk [])).entries =
    ((List.range n).reverse.map (fun i => (i, scenarioSignal))).take signalCap := by
  induction n with
  | zero => rfl
  | succ n ih =>
    have hn2 : n ≤ signalTTL := le_trans (Nat.le_succ n) hn
    rw [List.range_succ, List.foldl_append]
    simp only [List.foldl_cons, List.foldl_nil]
    show (cleanupStore n ((n, scenarioSignal) :: _)) = _
    unfold cleanupStore
    rw [scenario_filter_id n hn2, ih hn2]
    rw [List.reverse_append, List.reverse_singleton]
    simp only [List.singleton_append, List.map_cons]
    show List.take signalCap ((n, scenarioSignal) :: _) = _
    have hcap : signalCap = 499 + 1 := rfl
    rw [hcap, List.take_succ_cons, List.take_succ_cons, List.take_take]
    norm_num

/-- C2: every append enforces the TTL and the cap, every query of a
reachable store observes at most the cap and no expired entry, the
600-insert scenario retains exactly the 500 most recent entries, and a
query after the TTL has lapsed with no further inserts is empty.  The
store is modelled from the spec. -/
theorem signal_store_retention :
    (∀ now : ℕ, ∀ s : CoreSignal, ∀ store : SignalStore,
      (appendSignal now s store).entries.length ≤ signalCap ∧
      ∀ e ∈ (appendSignal now s store).entries, now ≤ e.1 + signalTTL) ∧
    (∀ store : SignalStore, StoreReachable store → ∀ now : ℕ,
      (queryStore now store).length ≤ signalCap ∧
      ∀ e ∈ queryStore now store, now ≤ e.1 + signalTTL) ∧
    (scenarioStore600.entries =
      ((List.range 600).reverse.map (fun i => (i, scenarioSignal))).take
        signalCap ∧
     scenarioStore600.entries.length = signalCap) ∧
    queryStore (signalTTL + 1)
      (appendSignal 0 scenarioSignal (SignalStore.mk [])) = [] := by
  have hscen : scenarioStore600.entries =
      ((List.range 600).reverse.map (fun i => (i, scenarioSignal))).take
        signalCap :=
    scenarioFold_entries 600 (by norm_num [signalTTL])
  refine ⟨?_, ?_, ⟨hscen, ?_⟩, rfl⟩
  · intro now s store
    exact ⟨cleanupStore_length _ _, fun e he => mem_cleanupStore he⟩
  · intro store h now
    constructor
    · exact le_trans (List.length_filter_le _ _) (storeReachable_length h)
    · intro e he
      exact of_decide_eq_true (List.mem_filter.mp he).2
  · rw [hscen, List.length_take, List.length_map, List.length_reverse,
      List.length_range]
    rfl

/-- C2 witness: the query clause applied to the reachable empty store. -/
theorem signal_store_retention_witness :
    (queryStore 3 (SignalStore.mk [])).length ≤ signalCap :=
  (signal_store_retention.2.1 (SignalStore.mk []) StoreReachable.empty 3).1

/-- C3: the aggregator emits at most one final signal per evaluation,
and when the BUY and SELL groups are both non-empty with summed
confidences within the margin, the final signal is HOLD.  The aggregator
is modelled from the spec. -/
theorem aggregator_single_decision :
    (∀ cfg : AggConfig, ∀ sigs : List CoreSignal,
      (aggregateSignals cfg sigs).length ≤ 1) ∧
    (∀ cfg : AggConfig, ∀ sigs : List CoreSignal,
      signalsOfType SignalType.BUY sigs ≠ [] →
      signalsOfType SignalType.SELL sigs ≠ [] →
      |confidenceSum SignalType.BUY sigs - confidenceSum SignalType.SELL sigs|
        ≤ cfg.margin →
      ∃ h : CoreSignal, aggregateSignals cfg sigs = [h] ∧
        h.signal_type = SignalType.HOLD) := by
  constructor
  · intro cfg sigs
    cases sigs with
    | nil => simp [aggregateSignals]
    | cons s0 tl =>
      unfold aggregateSignals
      split_ifs <;> simp
  · intro cfg sigs h1 h2 h3
    cases sigs with
    | nil => simp [signalsOfType] at h1
    | cons s0 tl =>
      simp only [aggregateSignals]
      rw [if_pos ⟨h1, h2, h3⟩]
      exact ⟨_, rfl, rfl⟩

/-- C3 witness: the conflict clause applied to a concrete candidate set
with one BUY and one SELL of equal confidence and margin one. -/
theorem aggregator_single_decision_witness :
    ∃ h : CoreSignal,
      aggregateSignals (AggConfig.mk 1) aggWitnessSigs = [h] ∧
      h.signal_type = SignalType.HOLD := by
  have hne : SignalType.SELL ≠ SignalType.BUY := by decide
  have hne2 : SignalType.BUY ≠ SignalType.SELL := by decide
  have e1 : confidenceSum SignalType.BUY aggWitnessSigs = 1 := by
    norm_num [confidenceSum, signalsOfType, aggWitnessSigs, scenarioSignal,
      scenarioSellSignal, List.filter_cons, hne, hne2]
  have e2 : confidenceSum SignalType.SELL aggWitnessSigs = 1 := by
    norm_num [confidenceSum, signalsOfType, aggWitnessSigs, scenarioSignal,
      scenarioSellSignal, List.filter_cons, hne, hne2]
  refine aggregator_single_decision.2 (AggConfig.mk 1) aggWitnessSigs
    (by decide) (by decide) ?_
  rw [e1, e2]
  norm_num


/-! Phase lemmas for the backtest replay loop. -/

theorem btOpenPending_trades (i : ℕ) (c : Candle) (st : BtState) :
    (btOpenPending i c st).trades = st.trades := by
  unfold btOpenPending
  cases hp : st.pending <;> rfl

theorem btOpenPending_equity (i : ℕ) (c : Candle) (st : BtState) :
    (btOpenPending i c st).equity = st.equity := by
  unfold btOpenPending
  cases hp : st.pending <;> rfl

theorem btOpenPending_capital (i : ℕ) (c : Candle) (st : BtState) :
    (btOpenPending i c st).capital = st.capital := by
  unfold btOpenPending
  cases hp : st.pending <;> rfl

theorem btOpenPending_pending (i : ℕ) (c : Candle) (st : BtState) :
    (btOpenPending i c st).pending = none := by
  unfold btOpenPending
  cases hp : st.pending
  · exact hp
  · rfl

theorem btOpenPending_position (i : ℕ) (c : Candle) (st : BtState)
    (pos2 : BtPosition) (h : (btOpenPending i c st).position = some pos2) :
    st.position = some pos2 ∨
      ∃ p, st.pending = some p ∧
        pos2 = BtPosition.mk p.sig p.sigIndex i c.op := by
  unfold btOpenPending at h
  cases hp : st.pending with
  | none =>
    simp only [hp] at h
    exact Or.inl h
  | some p =>
    simp only [hp, Option.some.injEq] at h
    exact Or.inr ⟨p, rfl, h.symm⟩

theorem btCheckExit_equity (i : ℕ) (c : Candle) (b : Bool) (st : BtState) :
    (btCheckExit i c b st).equity = st.equity := by
  cases hp : st.position with
  | none => simp only [btCheckExit, hp]
  | some pos =>
    cases hx : exitCheck pos c with
    | some px => simp only [btCheckExit, hp, hx, closePosition]
    | none =>
      cases b <;> simp only [btCheckExit, hp, hx, closePosition] <;> rfl

theorem btCheckExit_pending (i : ℕ) (c : Candle) (b : Bool) (st : BtState) :
    (btCheckExit i c b st).pending = st.pending := by
  cases hp : st.position with
  | none => simp only [btCheckExit, hp]
  | some pos =>
    cases hx : exitCheck pos c with
    | some px => simp only [btCheckExit, hp, hx, closePosition]
    | none =>
      cases b <;> simp only [btCheckExit, hp, hx, closePosition] <;> rfl

theorem btCheckExit_position (i : ℕ) (c : Candle) (b : Bool) (st : BtState)
    (pos2 : BtPosition) (h : (btCheckExit i c b st).position = some pos2) :
    st.position = some pos2 := by
  cases hp : st.position with
  | none =>
    simp only [btCheckExit, hp] at h
    exact h
  | some pos =>
    cases hx : exitCheck pos c with
    | some px =>
      simp only [btCheckExit, hp, hx, closePosition] at h
      exact Option.noConfusion h
    | none =>
      cases b
      · simp only [btCheckExit, hp, hx, Bool.false_eq_true, if_false] at h
        exact h
      · simp only [btCheckExit, hp, hx, if_true, closePosition] at h
        exact Option.noConfusion h

theorem btCheckExit_trades (i : ℕ) (c : Candle) (b : Bool) (st : BtState)
    (t : BtTrade) (h : t ∈ (btCheckExit i c b st).trades) :
    t ∈ st.trades ∨ ∃ pos px, st.position = some pos ∧
      t = BtTrade.mk pos.sigIndex pos.entryIndex i pos.entryPrice px
        pos.sig.signal_type := by
  cases hp : st.position with
  | none =>
    simp only [btCheckExit, hp] at h
    exact Or.inl h
  | some pos =>
    cases hx : exitCheck pos c with
    | some px =>
      simp only [btCheckExit, hp, hx, closePosition, List.mem_cons] at h
      rcases h with h | h
      · exact Or.inr ⟨pos, px, rfl, h⟩
      · exact Or.inl h
    | none =>
      cases b
      · simp only [btCheckExit, hp, hx, Bool.false_eq_true, if_false] at h
        exact Or.inl h
      · simp only [btCheckExit, hp, hx, if_true, closePosition,
          List.mem_cons] at h
        rcases h with h | h
        · exact Or.inr ⟨pos, c.cl, rfl, h⟩
        · exact Or.inl h

theorem btAskStrategy_trades (strat : List Candle → Option CoreSignal)
    (sn : List Candle) (i : ℕ) (st : BtState) :
    (btAskStrategy strat sn i st).trades = st.trades := by
  cases hs : strat sn with
  | none => simp only [btAskStrategy, hs]
  | some sig => simp only [btAskStrategy, hs]; split_ifs <;> rfl

theorem btAskStrategy_position (strat : List Candle → Option CoreSignal)
    (sn : List Candle) (i : ℕ) (st : BtState) :
    (btAskStrategy strat sn i st).position = st.position := by
  cases hs : strat sn with
  | none => simp only [btAskStrategy, hs]
  | some sig => simp only [btAskStrategy, hs]; split_ifs <;> rfl

theorem btAskStrategy_equity (strat : List Candle → Option CoreSignal)
    (sn : List Candle) (i : ℕ) (st : BtState) :
    (btAskStrategy strat sn i st).equity = st.equity := by
  cases hs : strat sn with
  | none => simp only [btAskStrategy, hs]
  | some sig => simp only [btAskStrategy, hs]; split_ifs <;> rfl

theorem btAskStrategy_capital (strat : List Candle → Option CoreSignal)
    (sn : List Candle) (i : ℕ) (st : BtState) :
    (btAskStrategy strat sn i st).capital = st.capital := by
  cases hs : strat sn with
  | none => simp only [btAskStrategy, hs]
  | some sig => simp only [btAskStrategy, hs]; split_ifs <;> rfl

theorem btAskStrategy_pending (strat : List Candle → Option CoreSignal)
    (sn : List Candle) (i : ℕ) (st : BtState) (p : BtPending)
    (h : (btAskStrategy strat sn i st).pending = some p) :
    st.pending = some p ∨ p.sigIndex = i := by
  cases hs : strat sn with
  | none =>
    simp only [btAskStrategy, hs] at h
    exact Or.inl h
  | some sig =>
    simp only [btAskStrategy, hs] at h
    split_ifs at h
    · exact Or.inl h
    · simp only [Option.some.injEq] at h
      exact Or.inr (by rw [← h])
    · exact Or.inl h

theorem btOpenPending_posOK (candles : List Candle) (i : ℕ) (c : Candle)
    (st : BtState) (hci : candles[i]? = some c)
    (hpend : ∀ p, st.pending = some p → p.sigIndex + 1 = i)
    (hpos : ∀ pos, st.position = some pos → BtPosOK candles pos) :
    ∀ pos, (btOpenPending i c st).position = some pos →
      BtPosOK candles pos := by
  intro pos h
  rcases btOpenPending_position i c st pos h with h2 | ⟨p, hp, rfl⟩
  · exact hpos pos h2
  · exact ⟨(hpend p hp).symm, ⟨c, hci, rfl⟩⟩

theorem btLoop_no_lookahead_inv (strat : List Candle → Option CoreSignal)
    (candles : List Candle) :
    ∀ rest seen (i : ℕ) (st : BtState), seen ++ rest = candles →
      seen.length = i →
      (∀ p, st.pending = some p → p.sigIndex + 1 = i) →
      (∀ pos, st.position = some pos → BtPosOK candles pos) →
      (∀ t ∈ st.trades, BtTradeOK candles t) →
      ∀ t ∈ (btLoop strat seen i rest st).trades, BtTradeOK candles t := by
  intro rest
  induction rest with
  | nil =>
    intro seen i st _ _ _ _ htr t ht
    exact htr t ht
  | cons c rest2 ih =>
    intro seen i st hsplit hlen hpend hpos htr
    have hci : candles[i]? = some c := by
      rw [← hsplit, ← hlen, List.getElem?_append_right (le_refl seen.length)]
      simp
    have hpos1 : ∀ pos, (btOpenPending i c st).position = some pos →
        BtPosOK candles pos :=
      btOpenPending_posOK candles i c st hci hpend hpos
    simp only [btLoop]
    apply ih (seen ++ [c]) (i + 1)
    · rw [List.append_assoc]
      exact hsplit
    · simp [hlen]
    · -- pending invariant for the state entering the next iteration
      intro p hp
      rcases btAskStrategy_pending strat (seen ++ [c]) i _ p hp with h | h
      · rw [show (btRecordEquity c (btCheckExit i c rest2.isEmpty
            (btOpenPending i c st))).pending =
            (btCheckExit i c rest2.isEmpty (btOpenPending i c st)).pending
            from rfl] at h
        rw [btCheckExit_pending, btOpenPending_pending] at h
        exact Option.noConfusion h
      · rw [h]
    · -- position invariant
      intro pos hp
      rw [btAskStrategy_position] at hp
      rw [show (btRecordEquity c (btCheckExit i c rest2.isEmpty
          (btOpenPending i c st))).position =
          (btCheckExit i c rest2.isEmpty (btOpenPending i c st)).position
          from rfl] at hp
      exact hpos1 pos (btCheckExit_position _ _ _ _ _ hp)
    · -- trades invariant
      intro t ht
      rw [btAskStrategy_trades] at ht
      rw [show (btRecordEquity c (btCheckExit i c rest2.isEmpty
          (btOpenPending i c st))).trades =
          (btCheckExit i c rest2.isEmpty (btOpenPending i c st)).trades
          from rfl] at ht
      rcases btCheckExit_trades _ _ _ _ _ ht with h | ⟨pos, px, hpo, rfl⟩
      · rw [btOpenPending_trades] at h
        exact htr t h
      · rcases hpos1 pos hpo with ⟨he, cd, hcd, hpr⟩
        exact ⟨he, cd, hcd, hpr⟩

/-- C4: in every backtest run, every simulated trade is entered exactly
one candle after the candle whose close produced its signal, at that
next candle's open price; the engine never fills an entry on the signal
candle itself.  The engine is modelled from the spec. -/
theorem backtest_no_lookahead :
    ∀ strat : List Candle → Option CoreSignal, ∀ initial : ℚ,
      ∀ candles : List Candle,
      ∀ t ∈ (runBacktest strat initial candles).trades,
        t.entryIndex = t.sigIndex + 1 ∧
        ∃ cd, candles[t.entryIndex]? = some cd ∧ t.entryPrice = cd.op := by
  intro strat initial candles t ht
  have h := btLoop_no_lookahead_inv strat candles candles [] 0
    (BtState.mk initial none none [] []) rfl rfl
    (fun p hp => Option.noConfusion hp)
    (fun pos hp => Option.noConfusion hp)
    (fun t2 ht2 => absurd ht2 (List.not_mem_nil t2))
  exact h t (List.mem_reverse.mp ht)

/-- C4 witness: a concrete two-candle run in which the signal fires on
candle 0 and the trade is entered on candle 1. -/
theorem backtest_no_lookahead_witness :
    BtTrade.mk 0 1 1 100 110 SignalType.BUY ∈
      (runBacktest btWitnessStrat 1000 btWitnessCandles).trades ∧
    (BtTrade.mk 0 1 1 100 110 SignalType.BUY).entryIndex =
      (BtTrade.mk 0 1 1 100 110 SignalType.BUY).sigIndex + 1 := by
  have hmem : BtTrade.mk 0 1 1 100 110 SignalType.BUY ∈
      (runBacktest btWitnessStrat 1000 btWitnessCandles).trades := by
    show BtTrade.mk 0 1 1 100 110 SignalType.BUY ∈
      [BtTrade.mk 0 1 1 100 110 SignalType.BUY]
    exact List.mem_singleton.mpr rfl
  exact ⟨hmem,
    (backtest_no_lookahead btWitnessStrat 1000 btWitnessCandles _ hmem).1⟩

theorem btLoop_no_signal (strat : List Candle → Option CoreSignal)
    (hstrat : ∀ pre, strat pre = none) :
    ∀ (rest seen : List Candle) (i : ℕ) (cap : ℚ) (eq : List (ℕ × ℚ)),
      btLoop strat seen i rest (BtState.mk cap none none [] eq) =
        BtState.mk cap none none []
          ((rest.map (fun c => (c.ts, cap))).reverse ++ eq) := by
  intro rest
  induction rest with
  | nil =>
    intro seen i cap eq
    simp [btLoop]
  | cons c rest2 ih =>
    intro seen i cap eq
    simp only [btLoop]
    have h1 : btOpenPending i c (BtState.mk cap none none [] eq) =
        BtState.mk cap none none [] eq := rfl
    have h2 : btCheckExit i c rest2.isEmpty (BtState.mk cap none none [] eq) =
        BtState.mk cap none none [] eq := rfl
    have h3 : btRecordEquity c (BtState.mk cap none none [] eq) =
        BtState.mk cap none none [] ((c.ts, cap) :: eq) := rfl
    have h4 : btAskStrategy strat (seen ++ [c]) i
        (BtState.mk cap none none [] ((c.ts, cap) :: eq)) =
        BtState.mk cap none none [] ((c.ts, cap) :: eq) := by
      unfold btAskStrategy
      rw [hstrat]
    rw [h1, h2, h3, h4, ih (seen ++ [c]) (i + 1) cap ((c.ts, cap) :: eq)]
    simp

theorem btLoop_equity_times (strat : List Candle → Option CoreSignal) :
    ∀ (rest seen : List Candle) (i : ℕ) (st : BtState),
      (btLoop strat seen i rest st).equity.map Prod.fst =
        (rest.map Candle.ts).reverse ++ st.equity.map Prod.fst := by
  intro rest
  induction rest with
  | nil =>
    intro seen i st
    simp [btLoop]
  | cons c rest2 ih =>
    intro seen i st
    simp only [btLoop]
    rw [ih (seen ++ [c]) (i + 1)]
    rw [btAskStrategy_equity]
    rw [show (btRecordEquity c (btCheckExit i c rest2.isEmpty
        (btOpenPending i c st))).equity =
        (c.ts, (btCheckExit i c rest2.isEmpty
          (btOpenPending i c st)).capital) ::
          (btCheckExit i c rest2.isEmpty (btOpenPending i c st)).equity
        from rfl]
    rw [btCheckExit_equity, btOpenPending_equity]
    simp

theorem btLoop_equity_suffix (strat : List Candle → Option CoreSignal) :
    ∀ (rest seen : List Candle) (i : ℕ) (st : BtState),
      ∃ E, (btLoop strat seen i rest st).equity = E ++ st.equity := by
  intro rest
  induction rest with
  | nil =>
    intro seen i st
    exact ⟨[], by simp [btLoop]⟩
  | cons c rest2 ih =>
    intro seen i st
    simp only [btLoop]
    obtain ⟨E2, hE2⟩ := ih (seen ++ [c]) (i + 1)
      (btAskStrategy strat (seen ++ [c]) i
        (btRecordEquity c (btCheckExit i c rest2.isEmpty
          (btOpenPending i c st))))
    refine ⟨E2 ++ [(c.ts, (btCheckExit i c rest2.isEmpty
      (btOpenPending i c st)).capital)], ?_⟩
    rw [hE2, btAskStrategy_equity]
    rw [show (btRecordEquity c (btCheckExit i c rest2.isEmpty
        (btOpenPending i c st))).equity =
        (c.ts, (btCheckExit i c rest2.isEmpty
          (btOpenPending i c st)).capital) ::
          (btCheckExit i c rest2.isEmpty (btOpenPending i c st)).equity
        from rfl]
    rw [btCheckExit_equity, btOpenPending_equity]
    simp

/-- C5: a backtest whose strategy never fires yields zero trades, zero
total return and an equity curve flat at the initial capital; in every
backtest the equity curve is ordered monotonically in time and its first
value is the initial capital.  The engine is modelled from the spec. -/
theorem backtest_equity_properties :
    (∀ strat : List Candle → Option CoreSignal, ∀ initial : ℚ,
      ∀ candles : List Candle, (∀ pre, strat pre = none) →
      (runBacktest strat initial candles).total_trades = 0 ∧
      (runBacktest strat initial candles).total_return = 0 ∧
      (runBacktest strat initial candles).equity_curve =
        candles.map (fun c => (c.ts, initial))) ∧
    (∀ strat : List Candle → Option CoreSignal, ∀ initial : ℚ,
      ∀ candles : List Candle,
      List.Chain' (· ≤ ·) (candles.map Candle.ts) →
      List.Chain' (fun a b => a.1 ≤ b.1)
        (runBacktest strat initial candles).equity_curve) ∧
    (∀ strat : List Candle → Option CoreSignal, ∀ initial : ℚ,
      ∀ (c : Candle) (rest : List Candle),
      (runBacktest strat initial (c :: rest)).equity_curve.head? =
        some (c.ts, initial)) := by
  refine ⟨?_, ?_, ?_⟩
  · intro strat initial candles hstrat
    unfold runBacktest
    rw [btLoop_no_signal strat hstrat candles [] 0 initial []]
    refine ⟨rfl, ?_, ?_⟩
    · show (if initial = 0 then 0 else initial / initial - 1) = 0
      split_ifs with h0
      · rfl
      · rw [div_self h0]
        ring
    · show ((candles.map (fun c : Candle => (c.ts, initial))).reverse ++
        []).reverse = _
      simp
  · intro strat initial candles hchain
    have htimes : (runBacktest strat initial candles).equity_curve.map
        Prod.fst = candles.map Candle.ts := by
      unfold runBacktest
      show ((btLoop strat [] 0 candles
        (BtState.mk initial none none [] [])).equity.reverse).map
          Prod.fst = _
      rw [List.map_reverse, btLoop_equity_times]
      simp
    rw [← htimes] at hchain
    rw [List.chain'_map] at hchain
    exact hchain
  · intro strat initial c rest
    unfold runBacktest
    simp only [btLoop]
    have h123 : btRecordEquity c (btCheckExit 0 c rest.isEmpty
        (btOpenPending 0 c (BtState.mk initial none none [] []))) =
        BtState.mk initial none none [] [(c.ts, initial)] := rfl
    rw [h123]
    obtain ⟨E, hE⟩ := btLoop_equity_suffix strat rest ([] ++ [c]) (0 + 1)
      (btAskStrategy strat ([] ++ [c]) 0
        (BtState.mk initial none none [] [(c.ts, initial)]))
    rw [hE, btAskStrategy_equity]
    simp

/-- C5 witness: the never-fires clause applied to the constant none
strategy on a concrete one-candle window. -/
theorem backtest_equity_properties_witness :
    (runBacktest (fun _ => none) 1000 [Candle.mk 0 100 101 99 100 1]).total_trades = 0 ∧
    (runBacktest (fun _ => none) 1000 [Candle.mk 0 100 101 99 100 1]).total_return = 0 ∧
    (runBacktest (fun _ => none) 1000 [Candle.mk 0 100 101 99 100 1]).equity_curve =
      [Candle.mk 0 100 101 99 100 1].map (fun c => (c.ts, (1000 : ℚ))) :=
  backtest_equity_properties.1 (fun _ => none) 1000
    [Candle.mk 0 100 101 99 100 1] (fun _ => rfl)
